import Mathlib

/-!
Verification of the ITensor combiner-storage subsystem
(`itensor/itdata/itcombiner.cc`): the combine/uncombine algorithm and the
trivial per-kind task handlers for the Combiner storage kind.

The embedding models an IndexSet as a `List Index`, the dense buffer as a
`List α` (the C++ `ITReal` is a vector of doubles; the combine algorithm
never inspects element values, so the element type is kept generic, with
`ITReal := List ℝ` as the concrete instantiation), and the store-mutation
mediator's effect as an explicit `Option` of freshly installed data.
-/

namespace ITensorComb

/-- An index: opaque identity tag, prime level, and dimension.
Two indices are equal iff identity and prime level match. -/
structure Index where
  id : Nat
  pl : Nat
  dim : Nat
deriving DecidableEq, Repr

instance : Inhabited Index := ⟨⟨0, 0, 0⟩⟩

/-- Index equality as used by the C++ `operator==` on `Index`:
identity and prime level must match. -/
def indexEq (a b : Index) : Bool := a.id == b.id && a.pl == b.pl

/-- `findindex(is, i)`: position of the first entry of `is` equal to `i`,
`none` when absent (the C++ returns `-1`). -/
def findindex : List Index → Index → Option Nat
  | [], _ => none
  | x :: xs, i =>
      if indexEq x i then some 0
      else (findindex xs i).map (fun n => n + 1)

/-- Pointwise `indexEq` comparison of a candidate leading segment,
mirroring the `contig_sameord` scan of `combine`: the scan succeeds iff
the first list is exhausted before a mismatch or the end of the second. -/
def leadSegEq : List Index → List Index → Bool
  | [], _ => true
  | _ :: _, [] => false
  | a :: as, b :: bs => indexEq a b && leadSegEq as bs

/-- The `contig_sameord` test from `combine`: starting right after
position `J1` of `dis`, the entries `Cis[2..]` appear consecutively and in
the same order. -/
def contigSameord (dis : List Index) (J1 : Nat) (Cis : List Index) : Bool :=
  leadSegEq (Cis.drop 2) (dis.drop (J1 + 1))

/-- Product of a dimension list (number of elements of a dense tensor). -/
def prodL : List Nat → Nat
  | [] => 1
  | d :: ds => d * prodL ds

/-- Row-major flat offset of a multi-index inside a dimension list. -/
def idxToOffset : List Nat → List Nat → Nat
  | [], _ => 0
  | _ :: _, [] => 0
  | _ :: ds, i :: ivs => i * prodL ds + idxToOffset ds ivs

/-- Row-major decoding of a flat offset into a multi-index. -/
def offsetToIdx : List Nat → Nat → List Nat
  | [], _ => []
  | _ :: ds, o => o / prodL ds :: offsetToIdx ds (o % prodL ds)

/-- A multi-index is valid for a dimension list when it has the same
length and is pointwise below the extents. -/
def validIdx : List Nat → List Nat → Bool
  | [], [] => true
  | d :: ds, i :: ivs => decide (i < d) && validIdx ds ivs
  | _, _ => false

/-- Position of the first occurrence of a value in a list of naturals. -/
def posOfNat : List Nat → Nat → Option Nat
  | [], _ => none
  | v :: vs, k =>
      if v == k then some 0
      else (posOfNat vs k).map (fun n => n + 1)

/-- Modelled from the spec: a `Permutation` maps each old axis position
`j` to a new axis position `P j`; the permuted tensor's extent along new
axis `k` is the old extent along the axis sent to `k`. -/
def permDims (ds P : List Nat) : List Nat :=
  (List.range ds.length).map (fun k => ds.getD ((posOfNat P k).getD 0) 0)

/-- Modelled from the spec: `permute(tfrom, P)` materializes a physically
reordered buffer. Row-major layout; the element of the new buffer at
multi-index `J` is the old element at the multi-index `I` with
`I j = J (P j)`. The tensor `permute` routine lives in
`itensor/tensor/permute.h`, outside this excerpt. -/
def permuteBuffer [Inhabited α] (d : List α) (ds P : List Nat) : List α :=
  let nds := permDims ds P
  (List.range (prodL nds)).map (fun o =>
    let J := offsetToIdx nds o
    d.getD
      (idxToOffset ds ((List.range ds.length).map
        (fun j => J.getD (P.getD j 0) 0)))
      default)

/-- Element of a dense buffer with shape `dims` at multi-index `I`. -/
def denseAt [Inhabited α] (d : List α) (dims I : List Nat) : α :=
  d.getD (idxToOffset dims I) default

/-- Failure modes of `combine`. `noContracted` is the
"No contracted indices in combiner-tensor product" error (raised when the
first constituent is absent); `missingIndex i` is the
"Combiner: missing index" error, whose diagnostic output names the
missing index `i`; `malformed` covers combiner index sets too short for
the C++ code to access `Cis[0]` or `Cis[1]` at all. -/
inductive CombineErr where
  | noContracted
  | missingIndex (i : Index)
  | malformed
deriving DecidableEq, Repr

/-- Result of `combine`: the output IndexSet slot `Nis`, and the data the
mediator installed via `makeNewData` (`none` when no new storage was
allocated, so the input buffer itself remains the storage). -/
structure CombineOut (α : Type) where
  Nis : List Index
  newData : Option (List α)
deriving DecidableEq, Repr

/-- First pass of the general combine case: for each constituent (in
combiner order) find its position in `dis` and assign it the next front
destination; fail with the constituent itself when it is absent. The
destination array starts all-unassigned (`none`, the C++ `-1`). -/
def phase1 (dis : List Index) :
    List Index → Nat → List (Option Nat) → Except Index (List (Option Nat))
  | [], _, P => .ok P
  | c :: cs, ni, P =>
      match findindex dis c with
      | none => .error c
      | some j => phase1 dis cs (ni + 1) (P.set j (some ni))

/-- Second pass of the general combine case: walk the positions of `dis`
in order, assigning each still-unassigned position the next back
destination and collecting its index as an uncombined output index. -/
def phase2 : List (Option Nat) → List Index → Nat → List Nat × List Index
  | some v :: Ps, _ :: xs, ni =>
      let r := phase2 Ps xs ni
      (v :: r.1, r.2)
  | none :: Ps, x :: xs, ni =>
      let r := phase2 Ps xs (ni + 1)
      (ni :: r.1, x :: r.2)
  | _, _, _ => ([], [])

/-- The `combine` routine of `itcombiner.cc`: dense operand buffer `d`
with IndexSet `dis`, combiner IndexSet `Cis` (composite index first, then
the constituents in canonical order). Returns the output IndexSet and the
optionally installed fresh buffer. -/
def combine [Inhabited α] (d : List α) (dis Cis : List Index) :
    Except CombineErr (CombineOut α) :=
  match Cis with
  | [] => .error .malformed
  | cind :: crest =>
    match findindex dis cind with
    | some jc =>
        .ok ⟨dis.take jc ++ crest ++ dis.drop (jc + 1), none⟩
    | none =>
      match crest with
      | [] => .error .malformed
      | c1 :: _ =>
        match findindex dis c1 with
        | none => .error .noContracted
        | some J1 =>
          if contigSameord dis J1 (cind :: crest) then
            .ok ⟨dis.take J1 ++ cind :: dis.drop (J1 + crest.length), none⟩
          else
            match phase1 dis crest 0 (List.replicate dis.length none) with
            | .error c => .error (.missingIndex c)
            | .ok P1 =>
                let pr := phase2 P1 dis crest.length
                .ok ⟨cind :: pr.2,
                     some (permuteBuffer d (dis.map Index.dim) pr.1)⟩

/-- Specification-side description of the permutation the general combine
case builds: a position holding the `c`-th constituent is sent to front
position `c`; a position holding no constituent is sent to the next back
position, in original order. -/
def destList (g : Index → Option Nat) : List Index → Nat → List Nat
  | [], _ => []
  | x :: xs, ni =>
      match g x with
      | some c => c :: destList g xs ni
      | none => ni :: destList g xs (ni + 1)

/-- IndexSet invariant: no two entries agree on identity and prime level. -/
def pairwiseDistinctIdx : List Index → Bool
  | [] => true
  | x :: xs => xs.all (fun y => !(indexEq x y)) && pairwiseDistinctIdx xs

/-- Combine followed by a second combine with the same Combiner recovers
the original tensor up to index identity: the first call yields `nis1`
and optionally fresh data, the second call (an uncombine, no new data)
yields `nis2`, and there is a position permutation `P` under which the
result's IndexSet matches the original pointwise by index identity and
the result's elements reproduce the original buffer's elements. -/
def roundTripSpec {α : Type} [Inhabited α] (d : List α)
    (dis Cis : List Index) : Prop :=
  ∃ (nis1 : List Index) (data1 : Option (List α)) (nis2 : List Index)
    (P : List Nat),
    combine d dis Cis = Except.ok ⟨nis1, data1⟩ ∧
    combine (data1.getD d) nis1 Cis = Except.ok ⟨nis2, none⟩ ∧
    nis2.length = dis.length ∧
    P.length = dis.length ∧
    (∀ j, j < dis.length → P.getD j 0 < dis.length) ∧
    P.Nodup ∧
    (∀ j, j < dis.length →
      indexEq (nis2.getD (P.getD j 0) default) (dis.getD j default) =
        true) ∧
    (∀ J, validIdx (nis2.map Index.dim) J = true →
      denseAt (data1.getD d) (nis2.map Index.dim) J =
        denseAt d (dis.map Index.dim)
          ((List.range dis.length).map (fun j => J.getD (P.getD j 0) 0)))

/-- The Combiner storage kind: no numeric payload, purely a grouping
directive (the shape lives in the IndexSet carried alongside). -/
inductive ITCombiner where
  | mk
deriving DecidableEq, Repr, Inhabited

/-- The complex scalar type `Cplx` (`std::complex` of doubles, modelled
over the reals). -/
structure Cplx where
  re : ℝ
  im : ℝ

/-- `doTask(GetElt, ITCombiner)`: requesting an element of a Combiner
storage with a nonempty index-value list is an error; the scalar (rank
zero) request returns `Cplx(1, 0)`. The requested element values are
modelled by their count-relevant list. -/
def doTaskGetEltCombiner (ginds : List Nat) : Except String Cplx :=
  if ginds.length != 0 then
    .error "GetElt not defined for non-scalar ITCombiner storage"
  else .ok ⟨1, 0⟩

/-- `doTask(NormNoScale, ITCombiner)`: the Combiner kind contributes zero
to the norm excluding scale. -/
def doTaskNormNoScaleCombiner (_ : ITCombiner) : ℝ := 0

/-- `doTask(Conj, ITCombiner)`: conjugation is a no-op on a Combiner
(the C++ body is empty and the storage is untouched; modelled as the
identity on the storage value). -/
def doTaskConjCombiner (c : ITCombiner) : ITCombiner := c

/-- Modelled from the spec: the conserved-quantity divergence value `QN`
(defined in `itensor/iqindex.h`, outside this excerpt); the
default-constructed `QN` is the neutral identity value. -/
structure QN where
  vals : List Int
deriving DecidableEq, Repr

instance : Inhabited QN := ⟨⟨[]⟩⟩

/-- The neutral (default-constructed) `QN`. -/
def QN.neutral : QN := default

/-- `doTask(CalcDiv, ITCombiner)`: returns `QN` with no arguments, the
default-constructed value. -/
def doTaskCalcDivCombiner (_ : ITCombiner) : QN := QN.neutral

/-- What the store-mutation mediator was told by a binary task
implementation: fresh storage was installed via `makeNewData`, or no new
storage was installed and the result defaults to the left operand's
storage, or `assignPointerRtoL` directed the result to the right
operand's storage. -/
inductive StorageOutcome (α : Type) where
  | fresh (buf : List α)
  | useLeft
  | useRight
deriving DecidableEq, Repr

/-- An operand's storage in a dense-against-Combiner contraction. -/
inductive Operand (α : Type) where
  | dense (buf : List α)
  | comb
deriving DecidableEq, Repr

/-- The storage the mediator yields as the contraction result, given the
left and right operand storages. -/
def StorageOutcome.resolve : StorageOutcome α → Operand α → Operand α → Operand α
  | .fresh b, _, _ => .dense b
  | .useLeft, l, _ => l
  | .useRight, _, r => r

/-- Swap the roles of left and right in a mediator outcome. -/
def StorageOutcome.flip : StorageOutcome α → StorageOutcome α
  | .fresh b => .fresh b
  | .useLeft => .useRight
  | .useRight => .useLeft

/-- Result of a binary contract task: output IndexSet and the mediator
outcome. -/
structure ContractResult (α : Type) where
  Nis : List Index
  outcome : StorageOutcome α
deriving DecidableEq, Repr

/-- `doTask(Contract, ITReal, ITCombiner)`: dense operand on the left
(`C.Lis` is the dense IndexSet, `C.Ris` the combiner IndexSet); calls
`combine(d, C.Lis, C.Ris)`. With no fresh storage the result keeps the
left (dense) operand's storage. -/
def doTaskContractRealCombiner [Inhabited α] (d : List α)
    (Lis Ris : List Index) : Except CombineErr (ContractResult α) :=
  match combine d Lis Ris with
  | .error e => .error e
  | .ok r =>
      .ok ⟨r.Nis, match r.newData with
                  | some b => .fresh b
                  | none => .useLeft⟩

/-- `doTask(Contract, ITCombiner, ITReal)`: combiner operand on the left;
calls `combine(d, C.Ris, C.Lis)` with the roles swapped, then, when no
new data was installed, calls `assignPointerRtoL` so the result takes the
right (dense) operand's storage. -/
def doTaskContractCombinerReal [Inhabited α] (d : List α)
    (Lis Ris : List Index) : Except CombineErr (ContractResult α) :=
  match combine d Ris Lis with
  | .error e => .error e
  | .ok r =>
      .ok ⟨r.Nis, match r.newData with
                  | some b => .fresh b
                  | none => .useRight⟩

/-- `ITReal` storage: a dense buffer of reals. -/
def ITReal := List ℝ

/-- Concrete indices for the worked example of the specification:
`A` of dimension 2. -/
def exA : Index := ⟨1, 0, 2⟩

/-- Example index `B` of dimension 3. -/
def exB : Index := ⟨2, 0, 3⟩

/-- Example index `C` of dimension 2. -/
def exC : Index := ⟨3, 0, 2⟩

/-- Example composite index of dimension 6 combining `A` and `B`. -/
def exComp : Index := ⟨10, 0, 6⟩

/-! ### Basic lemmas about index equality and index search -/

theorem indexEq_iff {a b : Index} :
    indexEq a b = true ↔ (a.id = b.id ∧ a.pl = b.pl) := by
  simp [indexEq]

theorem indexEq_refl (x : Index) : indexEq x x = true := by
  simp [indexEq]

theorem indexEq_symm {a b : Index} (h : indexEq a b = true) :
    indexEq b a = true := by
  rw [indexEq_iff] at h ⊢
  exact ⟨h.1.symm, h.2.symm⟩

theorem indexEq_trans {a b c : Index} (h1 : indexEq a b = true)
    (h2 : indexEq b c = true) : indexEq a c = true := by
  rw [indexEq_iff] at h1 h2 ⊢
  exact ⟨h1.1.trans h2.1, h1.2.trans h2.2⟩

theorem getD_mem_of_lt {β : Type} [Inhabited β] {l : List β} {k : Nat}
    (h : k < l.length) : l.getD k default ∈ l := by
  rw [List.getD_eq_getElem?_getD, List.getElem?_eq_getElem h]
  simp

theorem findindex_some_lt {l : List Index} {i : Index} {j : Nat}
    (h : findindex l i = some j) : j < l.length := by
  induction l generalizing j with
  | nil => simp [findindex] at h
  | cons x xs ih =>
    rw [findindex] at h
    by_cases hx : indexEq x i = true
    · simp [hx] at h
      simp [← h]
    · simp [hx] at h
      obtain ⟨n, hn, rfl⟩ := h
      have := ih hn
      simp
      omega

theorem findindex_some_indexEq {l : List Index} {i : Index} {j : Nat}
    (h : findindex l i = some j) : indexEq (l.getD j default) i = true := by
  induction l generalizing j with
  | nil => simp [findindex] at h
  | cons x xs ih =>
    rw [findindex] at h
    by_cases hx : indexEq x i = true
    · simp [hx] at h
      rw [← h]
      simpa using hx
    · simp [hx] at h
      obtain ⟨n, hn, rfl⟩ := h
      simpa using ih hn

theorem findindex_eq_none_iff {l : List Index} {i : Index} :
    findindex l i = none ↔ ∀ x ∈ l, indexEq x i = false := by
  induction l with
  | nil => simp [findindex]
  | cons x xs ih =>
    rw [findindex]
    by_cases hx : indexEq x i = true
    · simp [hx]
    · have hx' : indexEq x i = false := by
        cases h : indexEq x i
        · rfl
        · exact absurd h hx
      simp [hx', ih]

theorem findindex_isSome_of_mem {l : List Index} {x i : Index}
    (hm : x ∈ l) (he : indexEq x i = true) : (findindex l i).isSome := by
  cases h : findindex l i with
  | some j => simp
  | none =>
    rw [findindex_eq_none_iff] at h
    have := h x hm
    rw [this] at he
    exact absurd he (by simp)

theorem findindex_cons_of_ne {x : Index} {xs : List Index} {i : Index}
    (h : indexEq x i = false) :
    findindex (x :: xs) i = (findindex xs i).map (fun n => n + 1) := by
  rw [findindex, h]
  simp

theorem findindex_cons_of_eq {x : Index} {xs : List Index} {i : Index}
    (h : indexEq x i = true) : findindex (x :: xs) i = some 0 := by
  rw [findindex, h]
  simp

/-! ### Lemmas about the IndexSet distinctness invariant -/

theorem pairwiseDistinctIdx_cons {x : Index} {xs : List Index} :
    pairwiseDistinctIdx (x :: xs) = true ↔
      (∀ y ∈ xs, indexEq x y = false) ∧ pairwiseDistinctIdx xs = true := by
  rw [pairwiseDistinctIdx]
  simp [List.all_eq_true, Bool.not_eq_true']

/-- With the distinctness invariant, a matching position is unique: any
position whose entry matches `i` is the position `findindex` returns. -/
theorem findindex_unique {l : List Index} {i : Index} {j k : Nat}
    (hd : pairwiseDistinctIdx l = true)
    (hf : findindex l i = some j)
    (hk : k < l.length)
    (he : indexEq (l.getD k default) i = true) : k = j := by
  induction l generalizing j k with
  | nil => simp at hk
  | cons x xs ih =>
    rw [pairwiseDistinctIdx_cons] at hd
    by_cases hx : indexEq x i = true
    · rw [findindex_cons_of_eq hx] at hf
      cases hf
      cases k with
      | zero => rfl
      | succ k =>
        exfalso
        simp at hk
        have hmem : xs.getD k default ∈ xs := getD_mem_of_lt (by omega)
        have hne := hd.1 _ hmem
        have : indexEq x (xs.getD k default) = true := by
          have h2 : indexEq (xs.getD k default) i = true := by simpa using he
          exact indexEq_trans hx (indexEq_symm h2)
        rw [hne] at this
        exact absurd this (by simp)
    · have hx' : indexEq x i = false := by
        cases h : indexEq x i
        · rfl
        · exact absurd h hx
      rw [findindex_cons_of_ne hx'] at hf
      cases h2 : findindex xs i with
      | none => rw [h2] at hf; simp at hf
      | some j' =>
        rw [h2] at hf
        simp at hf
        cases k with
        | zero =>
          exfalso
          simp at he
          rw [hx'] at he
          exact absurd he (by simp)
        | succ k =>
          have hk' : k < xs.length := by simp at hk; omega
          have he' : indexEq (xs.getD k default) i = true := by simpa using he
          have := ih hd.2 h2 hk' he'
          omega

/-! ### Unfolding lemmas for the three branches of `combine` -/

theorem combine_uncombine_eq {α : Type} [Inhabited α] (d : List α)
    {dis : List Index} {cind : Index} (crest : List Index) {jc : Nat}
    (hjc : findindex dis cind = some jc) :
    combine d dis (cind :: crest) =
      .ok ⟨dis.take jc ++ crest ++ dis.drop (jc + 1), none⟩ := by
  simp [combine, hjc]

theorem combine_contig_eq {α : Type} [Inhabited α] (d : List α)
    {dis : List Index} {cind c1 : Index} {cs : List Index} {J1 : Nat}
    (habs : findindex dis cind = none)
    (hJ1 : findindex dis c1 = some J1)
    (hct : contigSameord dis J1 (cind :: c1 :: cs) = true) :
    combine d dis (cind :: c1 :: cs) =
      .ok ⟨dis.take J1 ++ cind :: dis.drop (J1 + (c1 :: cs).length), none⟩ := by
  simp [combine, habs, hJ1, hct]

theorem combine_noContracted_eq {α : Type} [Inhabited α] (d : List α)
    {dis : List Index} {cind c1 : Index} {cs : List Index}
    (habs : findindex dis cind = none)
    (hJ1 : findindex dis c1 = none) :
    combine d dis (cind :: c1 :: cs) = .error .noContracted := by
  simp [combine, habs, hJ1]

theorem combine_general_unfold {α : Type} [Inhabited α] (d : List α)
    {dis : List Index} {cind c1 : Index} {cs : List Index} {J1 : Nat}
    (habs : findindex dis cind = none)
    (hJ1 : findindex dis c1 = some J1)
    (hct : contigSameord dis J1 (cind :: c1 :: cs) = false) :
    combine d dis (cind :: c1 :: cs) =
      match phase1 dis (c1 :: cs) 0 (List.replicate dis.length none) with
      | .error c => .error (.missingIndex c)
      | .ok P1 =>
          let pr := phase2 P1 dis (c1 :: cs).length
          .ok ⟨cind :: pr.2,
               some (permuteBuffer d (dis.map Index.dim) pr.1)⟩ := by
  simp [combine, habs, hJ1, hct]

/-! ### Claim theorems: uncombine, contiguous combine, relabeling paths -/

/-- C3: when `dis` contains the composite index at position `jc`, combine
uncombines: the output IndexSet replaces position `jc` of `dis` with the
constituent indices in canonical order, all other indices keep their
relative order, the rank is `dis.r() + Cis.r() - 2`, and no new storage
is installed (no data permutation). -/
theorem uncombine_replaces_composite {α : Type} [Inhabited α] (d : List α)
    (dis : List Index) (cind : Index) (crest : List Index) (jc : Nat)
    (hjc : findindex dis cind = some jc) :
    combine d dis (cind :: crest) =
      .ok ⟨dis.take jc ++ crest ++ dis.drop (jc + 1), none⟩ ∧
    (dis.take jc ++ crest ++ dis.drop (jc + 1)).length =
      dis.length + (cind :: crest).length - 2 := by
  have hlt := findindex_some_lt hjc
  refine ⟨combine_uncombine_eq d crest hjc, ?_⟩
  simp [List.length_append, List.length_take, List.length_drop]
  omega

theorem uncombine_replaces_composite_witness :
    findindex [exComp, exC] exComp = some 0 ∧
    (combine ([1, 2, 3, 4, 5, 6, 7, 8, 9, 10, 11, 12] : List Int)
        [exComp, exC] [exComp, exA, exB] =
      .ok ⟨[exComp, exC].take 0 ++ [exA, exB] ++ [exComp, exC].drop 1,
           none⟩ ∧
    ([exComp, exC].take 0 ++ [exA, exB] ++ [exComp, exC].drop 1).length =
      [exComp, exC].length + [exComp, exA, exB].length - 2) :=
  ⟨by decide,
   uncombine_replaces_composite [1, 2, 3, 4, 5, 6, 7, 8, 9, 10, 11, 12]
     [exComp, exC] exComp [exA, exB] 0 (by decide)⟩

/-- C2: when the composite index is absent and the constituents appear in
`dis` contiguously from position `J1` in their canonical order, combine
is a pure relabeling: the output IndexSet is the prefix of `dis` before
`J1`, then the composite index, then the suffix after the constituent
run; no data is permuted. In particular, the worked example of the
specification: IndexSet `(A, B, C)` with dims `(2, 3, 2)`, combined via
`Combiner(composite, A, B)`, yields `(composite, C)` with dims `(6, 2)`
and the element `[a, b, c]` found at `[a * 3 + b, c]`. -/
theorem combine_contiguous_ordered :
    (∀ (α : Type) [Inhabited α] (d : List α) (dis : List Index)
      (cind c1 : Index) (cs : List Index) (J1 : Nat),
      findindex dis cind = none →
      findindex dis c1 = some J1 →
      leadSegEq cs (dis.drop (J1 + 1)) = true →
      combine d dis (cind :: c1 :: cs) =
        .ok ⟨dis.take J1 ++ cind :: dis.drop (J1 + (c1 :: cs).length),
             none⟩) ∧
    (∀ (α : Type) [Inhabited α] (d : List α),
      combine d [exA, exB, exC] [exComp, exA, exB] =
        .ok ⟨[exComp, exC], none⟩ ∧
      ∀ a b c : Nat, a < 2 → b < 3 → c < 2 →
        denseAt d [6, 2] [a * 3 + b, c] = denseAt d [2, 3, 2] [a, b, c]) := by
  constructor
  · intro α _ d dis cind c1 cs J1 habs hJ1 hseg
    exact combine_contig_eq d habs hJ1 hseg
  · intro α _ d
    constructor
    · have habs : findindex [exA, exB, exC] exComp = none := by decide
      have hJ1 : findindex [exA, exB, exC] exA = some 0 := by decide
      have hct : contigSameord [exA, exB, exC] 0 [exComp, exA, exB] = true := by
        decide
      have h := combine_contig_eq d habs hJ1 hct
      simpa using h
    · intro a b c _ _ _
      have hoff : idxToOffset [6, 2] [a * 3 + b, c] =
          idxToOffset [2, 3, 2] [a, b, c] := by
        simp [idxToOffset, prodL]
        ring
      rw [denseAt, denseAt, hoff]

theorem combine_contiguous_ordered_witness :
    (findindex [exA, exB, exC] exComp = none ∧
     findindex [exA, exB, exC] exA = some 0 ∧
     leadSegEq [exB] ([exA, exB, exC].drop 1) = true ∧
     combine ([1, 2, 3] : List Int) [exA, exB, exC] [exComp, exA, exB] =
       .ok ⟨[exA, exB, exC].take 0 ++
              exComp :: [exA, exB, exC].drop (0 + [exA, exB].length),
            none⟩) ∧
    (0 < 2 ∧ 1 < 3 ∧ 1 < 2 ∧
     denseAt ([1, 2, 3, 4, 5, 6, 7, 8, 9, 10, 11, 12] : List Int)
         [6, 2] [0 * 3 + 1, 1] =
       denseAt ([1, 2, 3, 4, 5, 6, 7, 8, 9, 10, 11, 12] : List Int)
         [2, 3, 2] [0, 1, 1]) :=
  ⟨⟨by decide, by decide, by decide,
    combine_contiguous_ordered.1 Int [1, 2, 3] [exA, exB, exC] exComp exA
      [exB] 0 (by decide) (by decide) (by decide)⟩,
   ⟨by decide, by decide, by decide,
    (combine_contiguous_ordered.2 Int
      ([1, 2, 3, 4, 5, 6, 7, 8, 9, 10, 11, 12] : List Int)).2 0 1 1
      (by decide) (by decide) (by decide)⟩⟩

/-- C6: on the two relabeling-only paths (uncombine, and combine with
contiguous correctly-ordered constituents) `makeNewData` is never called:
the result carries `none` for new data, so the storage remains the input
operand's buffer; only the output IndexSet slot is produced. -/
theorem relabel_paths_no_new_data {α : Type} [Inhabited α] (d : List α)
    (dis : List Index) (cind : Index) (crest : List Index)
    (h : (∃ jc, findindex dis cind = some jc) ∨
         (findindex dis cind = none ∧
          ∃ c1 cs J1, crest = c1 :: cs ∧ findindex dis c1 = some J1 ∧
            contigSameord dis J1 (cind :: crest) = true)) :
    ∃ nis, combine d dis (cind :: crest) = .ok ⟨nis, none⟩ := by
  rcases h with ⟨jc, hjc⟩ | ⟨habs, c1, cs, J1, rfl, hJ1, hct⟩
  · exact ⟨_, combine_uncombine_eq d crest hjc⟩
  · exact ⟨_, combine_contig_eq d habs hJ1 hct⟩

theorem relabel_paths_no_new_data_witness :
    (∃ jc, findindex [exComp, exC] exComp = some jc) ∧
    ∃ nis,
      combine ([1, 2] : List Int) [exComp, exC] [exComp, exA, exB] =
        .ok ⟨nis, none⟩ :=
  ⟨⟨0, by decide⟩,
   relabel_paths_no_new_data [1, 2] [exComp, exC] exComp [exA, exB]
     (Or.inl ⟨0, by decide⟩)⟩

/-! ### Claim theorems: trivial Combiner task handlers -/

/-- C10: the scalar (rank-zero) `GetElt` request on a Combiner storage
succeeds and returns exactly the complex value `1 + 0i`. -/
theorem getElt_scalar_combiner :
    doTaskGetEltCombiner [] = .ok ⟨1, 0⟩ := rfl

/-- C8: a `GetElt` request on a Combiner storage with a nonzero number of
requested index values fails with a descriptive runtime error. -/
theorem getElt_nonscalar_combiner_errors (ginds : List Nat)
    (h : ginds ≠ []) :
    doTaskGetEltCombiner ginds =
      .error "GetElt not defined for non-scalar ITCombiner storage" := by
  unfold doTaskGetEltCombiner
  have hl : (ginds.length != 0) = true := by
    cases ginds with
    | nil => exact absurd rfl h
    | cons x xs => simp
  rw [hl]
  simp

theorem getElt_nonscalar_combiner_errors_witness :
    ([5] : List Nat) ≠ [] ∧
    doTaskGetEltCombiner [5] =
      .error "GetElt not defined for non-scalar ITCombiner storage" :=
  ⟨by decide, getElt_nonscalar_combiner_errors [5] (by decide)⟩

/-- C9: on any Combiner storage value, `NormNoScale` returns exactly `0`,
`Conj` is a no-op leaving the storage unchanged, and `CalcDiv` returns
the neutral default-constructed `QN`. -/
theorem combiner_trivial_task_answers (c : ITCombiner) :
    doTaskNormNoScaleCombiner c = 0 ∧
    doTaskConjCombiner c = c ∧
    doTaskCalcDivCombiner c = QN.neutral :=
  ⟨rfl, rfl, rfl⟩

/-! ### Claim theorem: symmetry of the two Contract dispatch orders -/

/-- C5: the two binary Contract overloads run the same combine logic with
the operand roles swapped: the reversed order produces the same output
IndexSet and the same error behaviour, differing only by the mediator
being told to take the other side's storage; resolving the mediator
outcome against the actual operands yields identical numeric results,
and in the reversed order every successful call without fresh storage
ends in `assignPointerRtoL` (result takes the right, dense, operand's
storage). -/
theorem contract_dispatch_symmetric {α : Type} [Inhabited α] (d : List α)
    (dis cis : List Index) :
    doTaskContractCombinerReal d cis dis =
      (doTaskContractRealCombiner d dis cis).map
        (fun r => ⟨r.Nis, r.outcome.flip⟩) ∧
    (∀ o : StorageOutcome α,
      o.resolve (Operand.dense d) Operand.comb =
        o.flip.resolve Operand.comb (Operand.dense d)) ∧
    (∀ r : ContractResult α,
      doTaskContractCombinerReal d cis dis = .ok r →
      (∃ b, r.outcome = .fresh b) ∨ r.outcome = .useRight) := by
  refine ⟨?_, ?_, ?_⟩
  · cases h : combine d dis cis with
    | error e =>
        simp [doTaskContractRealCombiner, doTaskContractCombinerReal, h,
              Except.map]
    | ok r =>
        cases hd : r.newData with
        | none =>
            simp [doTaskContractRealCombiner, doTaskContractCombinerReal,
                  h, hd, StorageOutcome.flip, Except.map]
        | some b =>
            simp [doTaskContractRealCombiner, doTaskContractCombinerReal,
                  h, hd, StorageOutcome.flip, Except.map]
  · intro o
    cases o <;> rfl
  · intro r hr
    rw [doTaskContractCombinerReal] at hr
    cases h : combine d dis cis with
    | error e => rw [h] at hr; exact absurd hr (by simp)
    | ok s =>
        rw [h] at hr
        cases hd : s.newData with
        | none =>
            simp [hd] at hr
            right
            simp [← hr]
        | some b =>
            simp [hd] at hr
            exact Or.inl ⟨b, by simp [← hr]⟩

theorem contract_dispatch_symmetric_witness :
    doTaskContractCombinerReal ([1, 2] : List Int) [exComp, exA, exB]
        [exComp, exC] =
      .ok ⟨[exA, exB, exC], StorageOutcome.useRight⟩ ∧
    ((StorageOutcome.useLeft : StorageOutcome Int).resolve
        (Operand.dense [1, 2]) Operand.comb =
      (StorageOutcome.useLeft : StorageOutcome Int).flip.resolve
        Operand.comb (Operand.dense [1, 2])) ∧
    ((∃ b, (StorageOutcome.useRight : StorageOutcome Int) =
        .fresh b) ∨
      (StorageOutcome.useRight : StorageOutcome Int) = .useRight) :=
  ⟨by rfl,
   (contract_dispatch_symmetric ([1, 2] : List Int) [exComp, exC]
     [exComp, exA, exB]).2.1 StorageOutcome.useLeft,
   (contract_dispatch_symmetric ([1, 2] : List Int) [exComp, exC]
     [exComp, exA, exB]).2.2 ⟨[exA, exB, exC], StorageOutcome.useRight⟩
     (by rfl)⟩

/-! ### Missing-constituent failure behaviour -/

theorem phase1_error_of_firstMissing (dis : List Index) (cs : List Index)
    (ni : Nat) (P : List (Option Nat)) (cm : Index)
    (h : cs.find? (fun x => (findindex dis x).isNone) = some cm) :
    phase1 dis cs ni P = .error cm := by
  induction cs generalizing ni P with
  | nil => simp at h
  | cons x xs ih =>
    cases hf : findindex dis x with
    | none =>
        rw [List.find?_cons_of_pos _ (by simp [hf])] at h
        simp at h
        subst h
        simp [phase1, hf]
    | some j =>
        rw [List.find?_cons_of_neg _ (by simp [hf])] at h
        simp only [phase1, hf]
        exact ih _ _ h

theorem leadSegEq_mem {as bs : List Index} (h : leadSegEq as bs = true) :
    ∀ a ∈ as, ∃ b ∈ bs, indexEq b a = true := by
  induction as generalizing bs with
  | nil => simp
  | cons a as ih =>
    cases bs with
    | nil => simp [leadSegEq] at h
    | cons b bs =>
      rw [leadSegEq] at h
      simp only [Bool.and_eq_true] at h
      intro a' ha'
      rcases List.mem_cons.mp ha' with rfl | hmem
      · exact ⟨b, List.mem_cons_self b bs, indexEq_symm h.1⟩
      · obtain ⟨b', hb', he⟩ := ih h.2 a' hmem
        exact ⟨b', List.mem_cons_of_mem _ hb', he⟩

theorem contig_false_of_missing {dis : List Index} {cind c1 : Index}
    {cs : List Index} {J1 : Nat} {cm : Index}
    (hcm : cm ∈ cs) (hmiss : findindex dis cm = none) :
    contigSameord dis J1 (cind :: c1 :: cs) = false := by
  cases hct : contigSameord dis J1 (cind :: c1 :: cs) with
  | false => rfl
  | true =>
    exfalso
    have hseg : leadSegEq cs (dis.drop (J1 + 1)) = true := hct
    obtain ⟨b, hb, he⟩ := leadSegEq_mem hseg cm hcm
    have hbdis : b ∈ dis := List.drop_subset _ _ hb
    have := findindex_isSome_of_mem hbdis he
    rw [hmiss] at this
    simp at this

/-- C7 (counterexample): with dense IndexSet `[A]` and combiner
`(composite, B)`, the composite is absent and the first (and only)
constituent `B` is missing from the dense IndexSet, yet combine fails
with the generic no-contracted-indices error, which is a different error
from the missing-index error naming `B`; so the claim that the failure
always names the first missing constituent does not hold. -/
theorem combine_missing_first_constituent_unnamed :
    findindex [exA] exComp = none ∧
    findindex [exA] exB = none ∧
    combine ([1, 2] : List Int) [exA] [exComp, exB] =
      .error .noContracted ∧
    CombineErr.noContracted ≠ CombineErr.missingIndex exB :=
  ⟨by decide, by decide, by rfl, by decide⟩

/-- C7 (amended): when the composite index is absent from `dis` and some
constituent is missing, combine fails before any new storage is
installed. If the first constituent `Cis[1]` itself is absent, the error
is the generic no-contracted-indices error (the missing index is not
named); otherwise the error is the missing-index error naming the first
missing constituent in combiner order. -/
theorem combine_missing_constituent_behaviour {α : Type} [Inhabited α]
    (d : List α) (dis : List Index) (cind c1 : Index) (cs : List Index)
    (habs : findindex dis cind = none) :
    (findindex dis c1 = none →
      combine d dis (cind :: c1 :: cs) = .error .noContracted) ∧
    (∀ J1 cm, findindex dis c1 = some J1 →
      (c1 :: cs).find? (fun x => (findindex dis x).isNone) = some cm →
      combine d dis (cind :: c1 :: cs) = .error (.missingIndex cm)) := by
  constructor
  · intro h
    exact combine_noContracted_eq d habs h
  · intro J1 cm hJ1 hfind
    have hp := List.find?_some hfind
    have hmem := List.mem_of_find?_eq_some hfind
    have hmiss : findindex dis cm = none := by
      simpa using hp
    have hcm_cs : cm ∈ cs := by
      rcases List.mem_cons.mp hmem with rfl | h2
      · rw [hJ1] at hmiss
        exact absurd hmiss (by simp)
      · exact h2
    have hct := @contig_false_of_missing dis cind c1 cs J1 cm hcm_cs hmiss
    rw [combine_general_unfold d habs hJ1 hct,
        phase1_error_of_firstMissing dis _ _ _ _ hfind]

theorem combine_missing_constituent_behaviour_witness :
    findindex [exA] exComp = none ∧
    findindex [exA] exA = some 0 ∧
    [exA, exB].find? (fun x => (findindex [exA] x).isNone) = some exB ∧
    combine ([1, 2] : List Int) [exA] [exComp, exA, exB] =
      .error (.missingIndex exB) :=
  ⟨by decide, by decide, by decide,
   (combine_missing_constituent_behaviour [1, 2] [exA] exComp exA [exB]
     (by decide)).2 0 exB (by decide) (by decide)⟩

/-! ### Characterization of the general combine case -/

theorem bool_eq_false {b : Bool} (h : ¬ b = true) : b = false := by
  cases b
  · rfl
  · exact absurd rfl h

theorem bool_eq_true {b : Bool} (h : ¬ b = false) : b = true := by
  cases b
  · exact absurd rfl h
  · rfl

/-- Pointwise description of the destination array after the first pass:
positions holding the `c`-th constituent carry destination `ni + c`, the
rest keep their previous entry. -/
theorem phase1_char (dis : List Index) (hdis : pairwiseDistinctIdx dis = true)
    (cs : List Index) :
    ∀ (ni : Nat) (P : List (Option Nat)),
      pairwiseDistinctIdx cs = true →
      (∀ c ∈ cs, (findindex dis c).isSome = true) →
      P.length = dis.length →
      ∃ Q, phase1 dis cs ni P = .ok Q ∧ Q.length = dis.length ∧
        ∀ j, j < dis.length →
          Q[j]? = (match findindex cs (dis.getD j default) with
                   | some c => some (some (ni + c))
                   | none => P[j]?) := by
  induction cs with
  | nil =>
    intro ni P _ _ hlen
    refine ⟨P, rfl, hlen, ?_⟩
    intro j hj
    simp [findindex]
  | cons c cs ih =>
    intro ni P hdc hpres hlen
    have hc := hpres c (List.mem_cons_self c cs)
    cases hfc : findindex dis c with
    | none => rw [hfc] at hc; simp at hc
    | some j0 =>
      have hj0 : j0 < dis.length := findindex_some_lt hfc
      have hj0eq : indexEq (dis.getD j0 default) c = true :=
        findindex_some_indexEq hfc
      rw [pairwiseDistinctIdx_cons] at hdc
      obtain ⟨Q, hQ, hQlen, hQget⟩ := ih (ni + 1) (P.set j0 (some ni)) hdc.2
        (fun c' hc' => hpres c' (List.mem_cons_of_mem _ hc'))
        (by simp [hlen])
      refine ⟨Q, ?_, hQlen, ?_⟩
      · simp only [phase1, hfc]
        exact hQ
      · intro j hj
        rw [hQget j hj]
        by_cases he : indexEq c (dis.getD j default) = true
        · have hje : indexEq (dis.getD j default) c = true := indexEq_symm he
          have hjj0 : j = j0 := findindex_unique hdis hfc hj hje
          subst hjj0
          rw [findindex_cons_of_eq he]
          have hnone : findindex cs (dis.getD j default) = none := by
            rw [findindex_eq_none_iff]
            intro y hy
            by_contra hcon
            have hyt : indexEq y (dis.getD j default) = true := bool_eq_true hcon
            have h1 : indexEq c y = true :=
              indexEq_trans he (indexEq_symm hyt)
            rw [hdc.1 y hy] at h1
            exact absurd h1 (by simp)
          rw [hnone]
          rw [List.getElem?_set_self (by omega)]
          simp
        · have he' : indexEq c (dis.getD j default) = false := bool_eq_false he
          rw [findindex_cons_of_ne he']
          have hjne : j0 ≠ j := by
            intro hcontra
            subst hcontra
            rw [indexEq_symm hj0eq] at he'
            simp at he'
          cases hfx : findindex cs (dis.getD j default) with
          | some c' =>
              have harith : ni + 1 + c' = ni + (c' + 1) := by omega
              simp [hfx, harith]
          | none =>
              simp only [hfx, Option.map_none']
              exact List.getElem?_set_ne hjne

/-- On an all-unassigned destination array, the first pass computes, at
each position of `dis`, the canonical number of the constituent found
there (`none` for a non-constituent position). -/
theorem phase1_eq_map (dis crest : List Index)
    (hdis : pairwiseDistinctIdx dis = true)
    (hdc : pairwiseDistinctIdx crest = true)
    (hpres : ∀ c ∈ crest, (findindex dis c).isSome = true) :
    phase1 dis crest 0 (List.replicate dis.length none) =
      .ok (dis.map (fun x => findindex crest x)) := by
  obtain ⟨Q, hQ, hQlen, hQget⟩ := phase1_char dis hdis crest 0
    (List.replicate dis.length none) hdc hpres (by simp)
  rw [hQ]
  congr 1
  apply List.ext_getElem
  · simp [hQlen]
  · intro j h1 h2
    have hjd : j < dis.length := by omega
    have hget := hQget j hjd
    rw [List.getElem?_eq_getElem h1] at hget
    have hgd : dis.getD j default = dis[j] := by
      rw [List.getD_eq_getElem?_getD, List.getElem?_eq_getElem hjd]
      rfl
    rw [hgd] at hget
    rw [List.getElem_map]
    cases hfx : findindex crest dis[j] with
    | some c =>
        rw [hfx] at hget
        simp at hget
        simp [hget]
    | none =>
        rw [hfx] at hget
        rw [List.getElem?_replicate, if_pos hjd] at hget
        simp at hget
        simp [hget]

/-- The second pass, run on the destination array produced by the first
pass, completes the permutation as described by `destList` and collects
the non-constituent indices in their original relative order. -/
theorem phase2_map_spec (g : Index → Option Nat) :
    ∀ (xs : List Index) (ni : Nat),
      phase2 (xs.map g) xs ni =
        (destList g xs ni, xs.filter (fun x => (g x).isNone)) := by
  intro xs
  induction xs with
  | nil => intro ni; rfl
  | cons x xs ih =>
    intro ni
    cases hg : g x with
    | some v =>
        simp only [List.map_cons, hg, phase2, destList, ih ni]
        simp [List.filter_cons, hg]
    | none =>
        simp only [List.map_cons, hg, phase2, destList, ih (ni + 1)]
        simp [List.filter_cons, hg]

theorem destList_length (g : Index → Option Nat) :
    ∀ (xs : List Index) (ni : Nat), (destList g xs ni).length = xs.length := by
  intro xs
  induction xs with
  | nil => intro ni; rfl
  | cons x xs ih =>
    intro ni
    cases hg : g x with
    | some v => simp [destList, hg, ih]
    | none => simp [destList, hg, ih]

/-- Pointwise description of the permutation `destList` builds: a
position holding the `c`-th constituent is sent to front position `c`,
and a position holding no constituent is sent to `ni` plus the number of
non-constituent positions before it. -/
theorem destList_getD (g : Index → Option Nat) :
    ∀ (xs : List Index) (ni j : Nat), j < xs.length →
      (destList g xs ni).getD j 0 =
        match g (xs.getD j default) with
        | some c => c
        | none =>
            ni + ((xs.take j).filter (fun x => (g x).isNone)).length := by
  intro xs
  induction xs with
  | nil => intro ni j hj; simp at hj
  | cons x xs ih =>
    intro ni j hj
    cases j with
    | zero =>
        cases hg : g x with
        | some v => simp [destList, hg]
        | none => simp [destList, hg]
    | succ j =>
        have hj' : j < xs.length := by simp at hj; omega
        rw [List.getD_cons_succ, List.take_succ_cons]
        cases hg : g x with
        | some v =>
            have hd : destList g (x :: xs) ni = v :: destList g xs ni := by
              simp [destList, hg]
            rw [hd, List.getD_cons_succ, ih ni j hj']
            cases hfx : g (xs.getD j default) with
            | some c => simp [hfx]
            | none => simp [hfx, List.filter_cons, hg]
        | none =>
            have hd : destList g (x :: xs) ni =
                ni :: destList g xs (ni + 1) := by
              simp [destList, hg]
            rw [hd, List.getD_cons_succ, ih (ni + 1) j hj']
            cases hfx : g (xs.getD j default) with
            | some c => simp [hfx]
            | none =>
                simp [hfx, List.filter_cons, hg]
                generalize (List.filter (fun x => (g x).isNone)
                  (List.take j xs)).length = L
                show ni + 1 + L = ni + (L + 1)
                omega

/-- Full description of the general combine case: with all constituents
present but not contiguous-and-ordered, combine permutes constituents to
the front (in combiner order) and the rest to the back (in original
order), installs the permuted buffer as fresh data, and outputs the
composite index followed by the non-constituent indices. -/
theorem combine_general_eq {α : Type} [Inhabited α] (d : List α)
    {dis : List Index} {cind c1 : Index} {cs : List Index} {J1 : Nat}
    (habs : findindex dis cind = none)
    (hJ1 : findindex dis c1 = some J1)
    (hct : contigSameord dis J1 (cind :: c1 :: cs) = false)
    (hdis : pairwiseDistinctIdx dis = true)
    (hdc : pairwiseDistinctIdx (c1 :: cs) = true)
    (hpres : ∀ c ∈ c1 :: cs, (findindex dis c).isSome = true) :
    combine d dis (cind :: c1 :: cs) =
      .ok ⟨cind :: dis.filter (fun x => (findindex (c1 :: cs) x).isNone),
           some (permuteBuffer d (dis.map Index.dim)
             (destList (fun x => findindex (c1 :: cs) x) dis
               (c1 :: cs).length))⟩ := by
  rw [combine_general_unfold d habs hJ1 hct,
      phase1_eq_map dis (c1 :: cs) hdis hdc hpres]
  have h2 := phase2_map_spec (fun x => findindex (c1 :: cs) x) dis
    (c1 :: cs).length
  simp only [h2]

/-- C1: general combine case (composite absent, every constituent
present, constituents not contiguous-and-ordered): combine computes the
permutation sending the position holding the `c`-th constituent to front
position `c` (combiner canonical order) and every non-constituent
position to the back, preserving relative order; it installs, through
the mediator, a fresh buffer equal to the original buffer permuted by
that permutation (`permuteBuffer` is the spec's model of the tensor
`permute` routine), and the output IndexSet is the composite index
followed by the non-constituent indices of `dis` in original relative
order. -/
theorem combine_general_permutes {α : Type} [Inhabited α] (d : List α)
    (dis : List Index) (cind c1 : Index) (cs : List Index) (J1 : Nat)
    (habs : findindex dis cind = none)
    (hJ1 : findindex dis c1 = some J1)
    (hct : contigSameord dis J1 (cind :: c1 :: cs) = false)
    (hdis : pairwiseDistinctIdx dis = true)
    (hdc : pairwiseDistinctIdx (c1 :: cs) = true)
    (hpres : ∀ c ∈ c1 :: cs, (findindex dis c).isSome = true) :
    combine d dis (cind :: c1 :: cs) =
      .ok ⟨cind :: dis.filter (fun x => (findindex (c1 :: cs) x).isNone),
           some (permuteBuffer d (dis.map Index.dim)
             (destList (fun x => findindex (c1 :: cs) x) dis
               (c1 :: cs).length))⟩ ∧
    (∀ j c, j < dis.length →
      findindex (c1 :: cs) (dis.getD j default) = some c →
      (destList (fun x => findindex (c1 :: cs) x) dis
        (c1 :: cs).length).getD j 0 = c) ∧
    (∀ j, j < dis.length →
      findindex (c1 :: cs) (dis.getD j default) = none →
      (destList (fun x => findindex (c1 :: cs) x) dis
          (c1 :: cs).length).getD j 0 =
        (c1 :: cs).length +
          ((dis.take j).filter
            (fun x => (findindex (c1 :: cs) x).isNone)).length) := by
  refine ⟨combine_general_eq d habs hJ1 hct hdis hdc hpres, ?_, ?_⟩
  · intro j c hj hfc
    rw [destList_getD _ dis _ j hj, hfc]
  · intro j hj hfc
    rw [destList_getD _ dis _ j hj, hfc]

theorem combine_general_permutes_witness :
    (findindex [exB, exC, exA] exComp = none ∧
     findindex [exB, exC, exA] exA = some 2 ∧
     contigSameord [exB, exC, exA] 2 [exComp, exA, exB] = false ∧
     pairwiseDistinctIdx [exB, exC, exA] = true ∧
     pairwiseDistinctIdx [exA, exB] = true ∧
     ∀ c ∈ [exA, exB], (findindex [exB, exC, exA] c).isSome = true) ∧
    combine ([0, 1, 2, 3, 4, 5, 6, 7, 8, 9, 10, 11] : List Int)
        [exB, exC, exA] [exComp, exA, exB] =
      .ok ⟨exComp ::
             List.filter (fun x => (findindex [exA, exB] x).isNone)
               [exB, exC, exA],
           some (permuteBuffer [0, 1, 2, 3, 4, 5, 6, 7, 8, 9, 10, 11]
             ([exB, exC, exA].map Index.dim)
             (destList (fun x => findindex [exA, exB] x) [exB, exC, exA]
               [exA, exB].length))⟩ :=
  ⟨⟨by decide, by decide, by decide, by decide, by decide, by decide⟩,
   (combine_general_permutes [0, 1, 2, 3, 4, 5, 6, 7, 8, 9, 10, 11]
     [exB, exC, exA] exComp exA [exB] 2 (by decide) (by decide)
     (by decide) (by decide) (by decide) (by decide)).1⟩

/-! ### List access helpers -/

theorem getD_of_lt {β : Type} (l : List β) (k : Nat) (dflt : β)
    (h : k < l.length) : l.getD k dflt = l[k] := by
  rw [List.getD_eq_getElem?_getD, List.getElem?_eq_getElem h]
  rfl

theorem getD_range_map {β : Type} (f : Nat → β) {n k : Nat} (dflt : β)
    (h : k < n) : ((List.range n).map f).getD k dflt = f k := by
  rw [List.getD_eq_getElem?_getD, List.getElem?_map,
      List.getElem?_range h]
  rfl

theorem getD_map_of_lt {β γ : Type} [Inhabited β] (f : β → γ)
    {l : List β} {k : Nat} (dflt : γ) (h : k < l.length) :
    (l.map f).getD k dflt = f (l.getD k default) := by
  rw [List.getD_eq_getElem?_getD, List.getElem?_map,
      List.getElem?_eq_getElem h, getD_of_lt _ _ _ h]
  rfl

theorem getD_range_of_lt {n k : Nat} (h : k < n) :
    (List.range n).getD k 0 = k := by
  rw [List.getD_eq_getElem?_getD, List.getElem?_range h]
  rfl

theorem getD_append_left {β : Type} {l₁ l₂ : List β} {k : Nat} (dflt : β)
    (h : k < l₁.length) : (l₁ ++ l₂).getD k dflt = l₁.getD k dflt := by
  rw [List.getD_eq_getElem?_getD, List.getElem?_append_left h,
      List.getD_eq_getElem?_getD]

theorem getD_append_right {β : Type} {l₁ l₂ : List β} {k : Nat} (dflt : β)
    (h : l₁.length ≤ k) :
    (l₁ ++ l₂).getD k dflt = l₂.getD (k - l₁.length) dflt := by
  rw [List.getD_eq_getElem?_getD, List.getElem?_append_right h,
      List.getD_eq_getElem?_getD]

theorem getD_take_of_lt {β : Type} {l : List β} {n k : Nat} (dflt : β)
    (h : k < n) : (l.take n).getD k dflt = l.getD k dflt := by
  rw [List.getD_eq_getElem?_getD, List.getElem?_take, if_pos h,
      List.getD_eq_getElem?_getD]

theorem getD_drop {β : Type} (l : List β) (n k : Nat) (dflt : β) :
    (l.drop n).getD k dflt = l.getD (n + k) dflt := by
  rw [List.getD_eq_getElem?_getD, List.getElem?_drop,
      List.getD_eq_getElem?_getD]

theorem range_map_getD_eq_self {J : List Nat} {n : Nat}
    (h : J.length = n) :
    (List.range n).map (fun j => J.getD j 0) = J := by
  apply List.ext_getElem
  · simp [h]
  · intro j h1 h2
    rw [List.getElem_map, List.getElem_range, getD_of_lt _ _ _ h2]

/-! ### Row-major offset arithmetic -/

theorem validIdx_length : ∀ {ds I : List Nat},
    validIdx ds I = true → I.length = ds.length := by
  intro ds
  induction ds with
  | nil =>
    intro I h
    cases I with
    | nil => rfl
    | cons i ivs => simp [validIdx] at h
  | cons d ds ih =>
    intro I h
    cases I with
    | nil => simp [validIdx] at h
    | cons i ivs =>
      simp only [validIdx, Bool.and_eq_true] at h
      simp [ih h.2]

theorem idxToOffset_lt : ∀ {ds I : List Nat},
    validIdx ds I = true → idxToOffset ds I < prodL ds := by
  intro ds
  induction ds with
  | nil =>
    intro I h
    cases I with
    | nil => simp [idxToOffset, prodL]
    | cons i ivs => simp [validIdx] at h
  | cons d ds ih =>
    intro I h
    cases I with
    | nil => simp [validIdx] at h
    | cons i ivs =>
      simp only [validIdx, Bool.and_eq_true, decide_eq_true_eq] at h
      have hoff := ih h.2
      have h1 : i * prodL ds + idxToOffset ds ivs < (i + 1) * prodL ds := by
        have : (i + 1) * prodL ds = i * prodL ds + prodL ds := by ring
        omega
      have h2 : (i + 1) * prodL ds ≤ d * prodL ds :=
        Nat.mul_le_mul_right _ (by omega)
      calc idxToOffset (d :: ds) (i :: ivs)
          = i * prodL ds + idxToOffset ds ivs := rfl
        _ < (i + 1) * prodL ds := h1
        _ ≤ d * prodL ds := h2
        _ = prodL (d :: ds) := rfl

theorem offsetToIdx_idxToOffset : ∀ {ds I : List Nat},
    validIdx ds I = true → offsetToIdx ds (idxToOffset ds I) = I := by
  intro ds
  induction ds with
  | nil =>
    intro I h
    cases I with
    | nil => rfl
    | cons i ivs => simp [validIdx] at h
  | cons d ds ih =>
    intro I h
    cases I with
    | nil => simp [validIdx] at h
    | cons i ivs =>
      simp only [validIdx, Bool.and_eq_true, decide_eq_true_eq] at h
      have hoff : idxToOffset ds ivs < prodL ds := idxToOffset_lt h.2
      have hp : 0 < prodL ds := by omega
      have hcomm : idxToOffset (d :: ds) (i :: ivs) =
          idxToOffset ds ivs + i * prodL ds := by
        show i * prodL ds + idxToOffset ds ivs =
          idxToOffset ds ivs + i * prodL ds
        ring
      rw [offsetToIdx, hcomm]
      have hdiv : (idxToOffset ds ivs + i * prodL ds) / prodL ds = i := by
        rw [Nat.add_mul_div_right _ _ hp, Nat.div_eq_of_lt hoff]
        omega
      have hmod : (idxToOffset ds ivs + i * prodL ds) % prodL ds =
          idxToOffset ds ivs := by
        rw [Nat.add_mul_mod_self_right, Nat.mod_eq_of_lt hoff]
      rw [hdiv, hmod, ih h.2]

/-- Reading the permuted buffer at the encoded offset of a valid
multi-index `J` over the permuted shape yields the original buffer's
element at the multi-index `j ↦ J (P j)`. -/
theorem permuteBuffer_getD {α : Type} [Inhabited α] (d : List α)
    (ds P J : List Nat) (hJ : validIdx (permDims ds P) J = true) :
    (permuteBuffer d ds P).getD (idxToOffset (permDims ds P) J) default =
      d.getD (idxToOffset ds ((List.range ds.length).map
        (fun j => J.getD (P.getD j 0) 0))) default := by
  have hlt := idxToOffset_lt hJ
  rw [permuteBuffer]
  rw [getD_range_map _ _ hlt, offsetToIdx_idxToOffset hJ]

/-! ### The general-case destination list is a permutation -/

theorem nodup_filterMap_idx (g : Index → Option Nat)
    (hginj : ∀ x y b, g x = some b → g y = some b → indexEq x y = true) :
    ∀ (l : List Index), pairwiseDistinctIdx l = true →
      (l.filterMap g).Nodup := by
  intro l
  induction l with
  | nil => simp
  | cons x xs ih =>
    intro hd
    rw [pairwiseDistinctIdx_cons] at hd
    cases hg : g x with
    | none =>
        rw [List.filterMap_cons_none hg]
        exact ih hd.2
    | some b =>
        rw [List.filterMap_cons_some hg, List.nodup_cons]
        refine ⟨?_, ih hd.2⟩
        intro hmem
        rw [List.mem_filterMap] at hmem
        obtain ⟨y, hy, hgy⟩ := hmem
        have h1 := hginj x y b hg hgy
        rw [hd.1 y hy] at h1
        exact absurd h1 (by simp)

theorem filterMap_findindex_bounds (dis crest : List Index) :
    ∀ b ∈ dis.filterMap (fun x => findindex crest x), b < crest.length := by
  intro b hb
  rw [List.mem_filterMap] at hb
  obtain ⟨x, _, hgx⟩ := hb
  exact findindex_some_lt hgx

theorem filterMap_findindex_surj (dis crest : List Index)
    (hdc : pairwiseDistinctIdx crest = true)
    (hpres : ∀ c ∈ crest, (findindex dis c).isSome = true) :
    ∀ b, b < crest.length →
      b ∈ dis.filterMap (fun x => findindex crest x) := by
  intro b hb
  have hcb : crest.getD b default ∈ crest := getD_mem_of_lt hb
  have hpb := hpres _ hcb
  cases hfb : findindex dis (crest.getD b default) with
  | none => rw [hfb] at hpb; simp at hpb
  | some j =>
    have hj : j < dis.length := findindex_some_lt hfb
    have hje : indexEq (dis.getD j default) (crest.getD b default) = true :=
      findindex_some_indexEq hfb
    have hsome : (findindex crest (dis.getD j default)).isSome :=
      findindex_isSome_of_mem hcb (indexEq_symm hje)
    cases hfc : findindex crest (dis.getD j default) with
    | none => rw [hfc] at hsome; simp at hsome
    | some b' =>
      have hbb : b = b' := findindex_unique hdc hfc hb (indexEq_symm hje)
      rw [List.mem_filterMap]
      exact ⟨dis.getD j default, getD_mem_of_lt hj, by rw [hfc, hbb]⟩

/-- Every constituent is found at exactly one position of `dis`: the
number of positions assigned a front destination equals the number of
constituents. -/
theorem countSome_eq (dis crest : List Index)
    (hdis : pairwiseDistinctIdx dis = true)
    (hdc : pairwiseDistinctIdx crest = true)
    (hpres : ∀ c ∈ crest, (findindex dis c).isSome = true) :
    (dis.filterMap (fun x => findindex crest x)).length = crest.length := by
  have hginj : ∀ x y b, findindex crest x = some b →
      findindex crest y = some b → indexEq x y = true := by
    intro x y b hx hy
    exact indexEq_trans (indexEq_symm (findindex_some_indexEq hx))
      (findindex_some_indexEq hy)
  have hnd := nodup_filterMap_idx _ hginj dis hdis
  have hsub1 : dis.filterMap (fun x => findindex crest x) ⊆
      List.range crest.length := by
    intro b hb
    rw [List.mem_range]
    exact filterMap_findindex_bounds dis crest b hb
  have hsub2 : List.range crest.length ⊆
      dis.filterMap (fun x => findindex crest x) := by
    intro b hb
    rw [List.mem_range] at hb
    exact filterMap_findindex_surj dis crest hdc hpres b hb
  have h1 := (List.Nodup.subperm hnd hsub1).length_le
  have h2 := (List.Nodup.subperm (List.nodup_range _) hsub2).length_le
  rw [List.length_range] at h1
  rw [List.length_range] at h2
  exact Nat.le_antisymm h1 h2

theorem filterMap_filter_isNone_length (g : Index → Option Nat) :
    ∀ (l : List Index),
      (l.filterMap g).length +
        (l.filter (fun x => (g x).isNone)).length = l.length := by
  intro l
  induction l with
  | nil => rfl
  | cons x xs ih =>
    cases hg : g x with
    | none =>
        rw [List.filterMap_cons_none hg]
        simp only [List.filter_cons, hg, Option.isNone_none, if_true,
          List.length_cons]
        omega
    | some b =>
        rw [List.filterMap_cons_some hg]
        simp [List.filter_cons, hg]
        omega

theorem destList_mem_cases (g : Index → Option Nat) :
    ∀ (xs : List Index) (ni e : Nat), e ∈ destList g xs ni →
      (∃ x ∈ xs, g x = some e) ∨
      (ni ≤ e ∧ e < ni + (xs.filter (fun x => (g x).isNone)).length) := by
  intro xs
  induction xs with
  | nil => intro ni e h; simp [destList] at h
  | cons x xs ih =>
    intro ni e h
    cases hg : g x with
    | some v =>
        have hd : destList g (x :: xs) ni = v :: destList g xs ni := by
          simp [destList, hg]
        rw [hd] at h
        rcases List.mem_cons.mp h with rfl | h2
        · exact Or.inl ⟨x, List.mem_cons_self x xs, hg⟩
        · rcases ih ni e h2 with ⟨y, hy, hgy⟩ | ⟨h1, h2b⟩
          · exact Or.inl ⟨y, List.mem_cons_of_mem _ hy, hgy⟩
          · refine Or.inr ⟨h1, ?_⟩
            simp only [List.filter_cons, hg, Option.isNone_some, if_false]
            exact h2b
    | none =>
        have hd : destList g (x :: xs) ni =
            ni :: destList g xs (ni + 1) := by
          simp [destList, hg]
        rw [hd] at h
        have hflen : ((x :: xs).filter
            (fun x => (g x).isNone)).length =
            (xs.filter (fun x => (g x).isNone)).length + 1 := by
          simp [List.filter_cons, hg]
        rcases List.mem_cons.mp h with rfl | h2
        · exact Or.inr ⟨Nat.le_refl _, by omega⟩
        · rcases ih (ni + 1) e h2 with ⟨y, hy, hgy⟩ | ⟨h1, h2b⟩
          · exact Or.inl ⟨y, List.mem_cons_of_mem _ hy, hgy⟩
          · exact Or.inr ⟨by omega, by omega⟩

theorem mem_destList_of (g : Index → Option Nat) :
    ∀ (xs : List Index) (ni e : Nat),
      ((∃ x ∈ xs, g x = some e) ∨
        (ni ≤ e ∧ e < ni + (xs.filter (fun x => (g x).isNone)).length)) →
      e ∈ destList g xs ni := by
  intro xs
  induction xs with
  | nil =>
    intro ni e h
    rcases h with ⟨x, hx, _⟩ | ⟨h1, h2⟩
    · simp at hx
    · simp at h2
      omega
  | cons x xs ih =>
    intro ni e h
    cases hg : g x with
    | some v =>
        have hd : destList g (x :: xs) ni = v :: destList g xs ni := by
          simp [destList, hg]
        rw [hd]
        rcases h with ⟨y, hy, hgy⟩ | ⟨h1, h2⟩
        · rcases List.mem_cons.mp hy with rfl | hy2
          · rw [hg] at hgy
            have : v = e := by injection hgy
            rw [this]
            exact List.mem_cons_self _ _
          · exact List.mem_cons_of_mem _ (ih ni e (Or.inl ⟨y, hy2, hgy⟩))
        · refine List.mem_cons_of_mem _ (ih ni e (Or.inr ⟨h1, ?_⟩))
          simp only [List.filter_cons, hg, Option.isNone_some,
            if_false] at h2
          exact h2
    | none =>
        have hd : destList g (x :: xs) ni =
            ni :: destList g xs (ni + 1) := by
          simp [destList, hg]
        rw [hd]
        have hflen : ((x :: xs).filter
            (fun x => (g x).isNone)).length =
            (xs.filter (fun x => (g x).isNone)).length + 1 := by
          simp [List.filter_cons, hg]
        rcases h with ⟨y, hy, hgy⟩ | ⟨h1, h2⟩
        · rcases List.mem_cons.mp hy with rfl | hy2
          · rw [hg] at hgy
            exact absurd hgy (by simp)
          · exact List.mem_cons_of_mem _
              (ih (ni + 1) e (Or.inl ⟨y, hy2, hgy⟩))
        · by_cases he : e = ni
          · rw [he]
            exact List.mem_cons_self _ _
          · refine List.mem_cons_of_mem _
              (ih (ni + 1) e (Or.inr ⟨by omega, by omega⟩))

theorem destList_nodup (g : Index → Option Nat) (m : Nat)
    (hginj : ∀ x y b, g x = some b → g y = some b → indexEq x y = true)
    (hbound : ∀ x b, g x = some b → b < m) :
    ∀ (xs : List Index) (ni : Nat), pairwiseDistinctIdx xs = true →
      m ≤ ni → (destList g xs ni).Nodup := by
  intro xs
  induction xs with
  | nil => intro ni _ _; simp [destList]
  | cons x xs ih =>
    intro ni hd hm
    rw [pairwiseDistinctIdx_cons] at hd
    cases hg : g x with
    | some v =>
        have hdd : destList g (x :: xs) ni = v :: destList g xs ni := by
          simp [destList, hg]
        rw [hdd, List.nodup_cons]
        refine ⟨?_, ih ni hd.2 hm⟩
        intro hmem
        rcases destList_mem_cases g xs ni v hmem with
          ⟨y, hy, hgy⟩ | ⟨h1, _⟩
        · have h2 := hginj x y v hg hgy
          rw [hd.1 y hy] at h2
          exact absurd h2 (by simp)
        · have := hbound x v hg
          omega
    | none =>
        have hdd : destList g (x :: xs) ni =
            ni :: destList g xs (ni + 1) := by
          simp [destList, hg]
        rw [hdd, List.nodup_cons]
        refine ⟨?_, ih (ni + 1) hd.2 (by omega)⟩
        intro hmem
        rcases destList_mem_cases g xs (ni + 1) ni hmem with
          ⟨y, _, hgy⟩ | ⟨h1, _⟩
        · have := hbound y ni hgy
          omega
        · omega

/-! ### Inversion of a destination permutation and remaining helpers -/

theorem posOfNat_some : ∀ {P : List Nat} {k j : Nat},
    posOfNat P k = some j → j < P.length ∧ P.getD j 0 = k := by
  intro P
  induction P with
  | nil => intro k j h; simp [posOfNat] at h
  | cons v vs ih =>
    intro k j h
    rw [posOfNat] at h
    by_cases hv : (v == k) = true
    · rw [if_pos hv] at h
      have hj : j = 0 := by injection h with h2; omega
      subst hj
      have hvk : v = k := by simpa using hv
      refine ⟨by simp, ?_⟩
      simpa using hvk
    · rw [if_neg hv] at h
      cases h2 : posOfNat vs k with
      | none => rw [h2] at h; simp at h
      | some j' =>
        rw [h2] at h
        simp at h
        obtain ⟨hlt, hget⟩ := ih h2
        subst h
        refine ⟨by simp; omega, ?_⟩
        simpa using hget

theorem posOfNat_isSome_of_mem : ∀ {P : List Nat} {k : Nat},
    k ∈ P → (posOfNat P k).isSome = true := by
  intro P
  induction P with
  | nil => intro k h; simp at h
  | cons v vs ih =>
    intro k h
    rw [posOfNat]
    by_cases hv : (v == k) = true
    · rw [if_pos hv]; rfl
    · rw [if_neg hv]
      rcases List.mem_cons.mp h with rfl | h2
      · exact absurd (by simp) hv
      · have := ih h2
        cases h3 : posOfNat vs k with
        | none => rw [h3] at this; simp at this
        | some j => rfl

/-- The element of a filtered list at the position counting the
predicate-satisfying entries before position `j` is the element at `j`
itself, provided the element at `j` satisfies the predicate. -/
theorem filter_getD_count (p : Index → Bool) :
    ∀ (xs : List Index) (j : Nat), j < xs.length →
      p (xs.getD j default) = true →
      (xs.filter p).getD ((xs.take j).filter p).length default =
        xs.getD j default := by
  intro xs
  induction xs with
  | nil => intro j hj _; simp at hj
  | cons x xs ih =>
    intro j hj hp
    cases j with
    | zero =>
        simp only [List.getD_cons_zero] at hp ⊢
        rw [List.filter_cons_of_pos hp]
        simp
    | succ j =>
        have hj' : j < xs.length := by simp at hj; omega
        rw [List.getD_cons_succ] at hp ⊢
        rw [List.take_succ_cons]
        by_cases hpx : p x = true
        · rw [List.filter_cons_of_pos hpx, List.filter_cons_of_pos hpx]
          rw [List.length_cons, List.getD_cons_succ]
          exact ih j hj' hp
        · have hpx' : p x = false := bool_eq_false hpx
          rw [List.filter_cons_of_neg (by simp [hpx']),
              List.filter_cons_of_neg (by simp [hpx'])]
          exact ih j hj' hp

theorem leadSegEq_length : ∀ {as bs : List Index},
    leadSegEq as bs = true → as.length ≤ bs.length := by
  intro as
  induction as with
  | nil => intro bs _; simp
  | cons a as ih =>
    intro bs h
    cases bs with
    | nil => simp [leadSegEq] at h
    | cons b bs =>
      rw [leadSegEq, Bool.and_eq_true] at h
      have := ih h.2
      simp
      omega

theorem leadSegEq_getD : ∀ {as bs : List Index},
    leadSegEq as bs = true → ∀ k, k < as.length →
      indexEq (as.getD k default) (bs.getD k default) = true := by
  intro as
  induction as with
  | nil => intro bs _ k hk; simp at hk
  | cons a as ih =>
    intro bs h k hk
    cases bs with
    | nil => simp [leadSegEq] at h
    | cons b bs =>
      rw [leadSegEq, Bool.and_eq_true] at h
      cases k with
      | zero => simpa using h.1
      | succ k =>
          have hk' : k < as.length := by simp at hk; omega
          rw [List.getD_cons_succ, List.getD_cons_succ]
          exact ih h.2 k hk'

theorem findindex_append_cons {A B : List Index} {i : Index}
    (h : ∀ x ∈ A, indexEq x i = false) :
    findindex (A ++ i :: B) i = some A.length := by
  induction A with
  | nil => simp [findindex_cons_of_eq (indexEq_refl i)]
  | cons a A ih =>
    have ha : indexEq a i = false := h a (List.mem_cons_self a A)
    rw [List.cons_append, findindex_cons_of_ne ha,
        ih (fun x hx => h x (List.mem_cons_of_mem _ hx))]
    rfl

/-! ### Round trip, contiguous case -/

theorem roundtrip_contig {α : Type} [Inhabited α] (d : List α)
    (dis : List Index) (cind c1 : Index) (cs : List Index) (J1 : Nat)
    (habs : findindex dis cind = none)
    (hJ1 : findindex dis c1 = some J1)
    (hct : contigSameord dis J1 (cind :: c1 :: cs) = true)
    (hdims : ∀ x ∈ dis, ∀ c ∈ c1 :: cs, indexEq c x = true →
      Index.dim c = Index.dim x) :
    roundTripSpec d dis (cind :: c1 :: cs) := by
  have hJ1r : J1 < dis.length := findindex_some_lt hJ1
  have hseg : leadSegEq cs (dis.drop (J1 + 1)) = true := hct
  have hcs_len : cs.length ≤ dis.length - (J1 + 1) := by
    have := leadSegEq_length hseg
    simpa [List.length_drop] using this
  have hm : (c1 :: cs).length = cs.length + 1 := by simp
  have hJm : J1 + (c1 :: cs).length ≤ dis.length := by omega
  have hTlen : (dis.take J1).length = J1 := by
    simp [List.length_take]
    omega
  have hc1 : combine d dis (cind :: c1 :: cs) =
      .ok ⟨dis.take J1 ++ cind :: dis.drop (J1 + (c1 :: cs).length),
           none⟩ := combine_contig_eq d habs hJ1 hct
  have hTfalse : ∀ x ∈ dis.take J1, indexEq x cind = false := fun x hx =>
    (findindex_eq_none_iff.mp habs) x (List.take_subset _ _ hx)
  have hfind1 : findindex
      (dis.take J1 ++ cind :: dis.drop (J1 + (c1 :: cs).length)) cind =
      some J1 := by
    rw [findindex_append_cons hTfalse, hTlen]
  have hc2 := combine_uncombine_eq d (c1 :: cs) hfind1
  have htake : (dis.take J1 ++
      cind :: dis.drop (J1 + (c1 :: cs).length)).take J1 = dis.take J1 := by
    rw [List.take_append_of_le_length (by omega), List.take_take]
    simp
  have hdrop : (dis.take J1 ++
      cind :: dis.drop (J1 + (c1 :: cs).length)).drop (J1 + 1) =
      dis.drop (J1 + (c1 :: cs).length) := by
    have h1 : J1 + 1 = (dis.take J1).length + 1 := by rw [hTlen]
    rw [h1, List.drop_append]
    rfl
  rw [htake, hdrop] at hc2
  have hTM : (dis.take J1 ++ (c1 :: cs)).length = J1 + (c1 :: cs).length := by
    simp [List.length_append, hTlen]
  have hnis2len : (dis.take J1 ++ (c1 :: cs) ++
      dis.drop (J1 + (c1 :: cs).length)).length = dis.length := by
    simp [List.length_append, List.length_take, List.length_drop]
    omega
  have hzone : ∀ k, k < dis.length →
      ((dis.take J1 ++ (c1 :: cs) ++
          dis.drop (J1 + (c1 :: cs).length)).getD k default =
        dis.getD k default) ∨
      (indexEq ((dis.take J1 ++ (c1 :: cs) ++
          dis.drop (J1 + (c1 :: cs).length)).getD k default)
          (dis.getD k default) = true ∧
        (dis.take J1 ++ (c1 :: cs) ++
          dis.drop (J1 + (c1 :: cs).length)).getD k default ∈
          (c1 :: cs)) := by
    intro k hk
    by_cases hk2 : k < J1 + (c1 :: cs).length
    · rw [getD_append_left _ (by omega : k < (dis.take J1 ++ (c1 :: cs)).length)]
      by_cases hk1 : k < J1
      · left
        rw [getD_append_left _ (by omega : k < (dis.take J1).length),
            getD_take_of_lt _ hk1]
      · right
        rw [getD_append_right _ (by omega : (dis.take J1).length ≤ k)]
        rw [hTlen]
        rcases Nat.eq_or_lt_of_le (Nat.le_of_not_lt hk1) with heq | hlt
        · have hkJ : k - J1 = 0 := by omega
          rw [hkJ]
          simp only [List.getD_cons_zero]
          refine ⟨?_, List.mem_cons_self c1 cs⟩
          have hje : indexEq (dis.getD J1 default) c1 = true :=
            findindex_some_indexEq hJ1
          have : J1 = k := by omega
          rw [← this]
          exact indexEq_symm hje
        · have hk' : k - J1 = (k - J1 - 1) + 1 := by omega
          rw [hk', List.getD_cons_succ]
          have hklt : k - J1 - 1 < cs.length := by omega
          have hle := leadSegEq_getD hseg (k - J1 - 1) hklt
          rw [getD_drop] at hle
          have heqk : J1 + 1 + (k - J1 - 1) = k := by omega
          rw [heqk] at hle
          refine ⟨hle, List.mem_cons_of_mem _ (getD_mem_of_lt hklt)⟩
    · left
      rw [getD_append_right _ (by omega : (dis.take J1 ++ (c1 :: cs)).length ≤ k)]
      rw [hTM, getD_drop]
      have heqk : J1 + (c1 :: cs).length + (k - (J1 + (c1 :: cs).length)) = k := by
        omega
      rw [heqk]
  refine ⟨dis.take J1 ++ cind :: dis.drop (J1 + (c1 :: cs).length), none,
    dis.take J1 ++ (c1 :: cs) ++ dis.drop (J1 + (c1 :: cs).length),
    List.range dis.length, hc1, hc2, hnis2len,
    by simp [List.length_range], ?_, List.nodup_range _, ?_, ?_⟩
  · intro j hj
    rw [getD_range_of_lt hj]
    exact hj
  · intro j hj
    rw [getD_range_of_lt hj]
    rcases hzone j hj with heq | ⟨hidx, _⟩
    · rw [heq]
      exact indexEq_refl _
    · exact hidx
  · intro J hJ
    have hdims_eq : (dis.take J1 ++ (c1 :: cs) ++
        dis.drop (J1 + (c1 :: cs).length)).map Index.dim =
        dis.map Index.dim := by
      apply List.ext_getElem
      · simp only [List.length_map]
        exact hnis2len
      · intro k h1 h2
        rw [List.getElem_map, List.getElem_map]
        have hk : k < dis.length := by
          simpa using h2
        have hknis : k < (dis.take J1 ++ (c1 :: cs) ++
            dis.drop (J1 + (c1 :: cs).length)).length := by omega
        rw [← getD_of_lt _ k default hknis, ← getD_of_lt _ k default hk]
        rcases hzone k hk with heq | ⟨hidx, hmem⟩
        · rw [heq]
        · exact hdims
            (dis.getD k default) (getD_mem_of_lt hk)
            ((dis.take J1 ++ (c1 :: cs) ++
              dis.drop (J1 + (c1 :: cs).length)).getD k default) hmem hidx
    rw [hdims_eq] at hJ ⊢
    have hJlen : J.length = dis.length := by
      have := validIdx_length hJ
      simpa using this
    have hmapJ : (List.range dis.length).map
        (fun j => J.getD ((List.range dis.length).getD j 0) 0) =
        (List.range dis.length).map (fun j => J.getD j 0) := by
      apply List.map_congr_left
      intro a ha
      rw [getD_range_of_lt (List.mem_range.mp ha)]
    rw [hmapJ, range_map_getD_eq_self hJlen]
    rfl

/-! ### Round trip, general (permuting) case -/

theorem roundtrip_general {α : Type} [Inhabited α] (d : List α)
    (dis : List Index) (cind c1 : Index) (cs : List Index) (J1 : Nat)
    (habs : findindex dis cind = none)
    (hJ1 : findindex dis c1 = some J1)
    (hct : contigSameord dis J1 (cind :: c1 :: cs) = false)
    (hdis : pairwiseDistinctIdx dis = true)
    (hdc : pairwiseDistinctIdx (c1 :: cs) = true)
    (hpres : ∀ c ∈ c1 :: cs, (findindex dis c).isSome = true)
    (hdims : ∀ x ∈ dis, ∀ c ∈ c1 :: cs, indexEq c x = true →
      Index.dim c = Index.dim x) :
    roundTripSpec d dis (cind :: c1 :: cs) := by
  have hc1 := combine_general_eq d habs hJ1 hct hdis hdc hpres
  have hginj : ∀ x y b, findindex (c1 :: cs) x = some b →
      findindex (c1 :: cs) y = some b → indexEq x y = true := by
    intro x y b hx hy
    exact indexEq_trans (indexEq_symm (findindex_some_indexEq hx))
      (findindex_some_indexEq hy)
  have hbound : ∀ (x : Index) (b : Nat),
      (fun x => findindex (c1 :: cs) x) x = some b →
      b < (c1 :: cs).length := by
    intro x b hx
    exact findindex_some_lt hx
  have hcount := countSome_eq dis (c1 :: cs) hdis hdc hpres
  have hsum := filterMap_filter_isNone_length
    (fun x => findindex (c1 :: cs) x) dis
  have hr : (c1 :: cs).length +
      (dis.filter (fun x => (findindex (c1 :: cs) x).isNone)).length =
      dis.length := by
    rw [← hcount]
    exact hsum
  have hPlen := destList_length (fun x => findindex (c1 :: cs) x) dis
    (c1 :: cs).length
  have hfind0 : findindex
      (cind :: dis.filter (fun x => (findindex (c1 :: cs) x).isNone))
      cind = some 0 := findindex_cons_of_eq (indexEq_refl cind)
  have hc2 := combine_uncombine_eq
    (permuteBuffer d (dis.map Index.dim)
      (destList (fun x => findindex (c1 :: cs) x) dis (c1 :: cs).length))
    (c1 :: cs) hfind0
  simp only [List.take_zero, List.nil_append, List.drop_succ_cons,
    List.drop_zero] at hc2
  have hlen2 : ((c1 :: cs) ++
      dis.filter (fun x => (findindex (c1 :: cs) x).isNone)).length =
      dis.length := by
    rw [List.length_append]
    exact hr
  have hPmem : ∀ e ∈ destList (fun x => findindex (c1 :: cs) x) dis
      (c1 :: cs).length, e < dis.length := by
    intro e he
    rcases destList_mem_cases _ dis _ e he with ⟨x, _, hgx⟩ | ⟨_, h2⟩
    · have := findindex_some_lt hgx
      omega
    · omega
  have hPnodup := destList_nodup (fun x => findindex (c1 :: cs) x)
    (c1 :: cs).length hginj hbound dis (c1 :: cs).length hdis
    (Nat.le_refl _)
  have hid : ∀ j, j < dis.length →
      indexEq (((c1 :: cs) ++
          dis.filter (fun x => (findindex (c1 :: cs) x).isNone)).getD
          ((destList (fun x => findindex (c1 :: cs) x) dis
            (c1 :: cs).length).getD j 0) default)
        (dis.getD j default) = true := by
    intro j hj
    rw [destList_getD _ dis _ j hj]
    cases hfx : findindex (c1 :: cs) (dis.getD j default) with
    | some c =>
        have hcm : c < (c1 :: cs).length := findindex_some_lt hfx
        rw [getD_append_left _ hcm]
        exact findindex_some_indexEq hfx
    | none =>
        rw [getD_append_right _ (Nat.le_add_right _ _),
            Nat.add_sub_cancel_left]
        have hp : (fun x => (findindex (c1 :: cs) x).isNone)
            (dis.getD j default) = true := by
          show (findindex (c1 :: cs) (dis.getD j default)).isNone = true
          rw [hfx]
          rfl
        rw [filter_getD_count _ dis j hj hp]
        exact indexEq_refl _
  have hdims_eq : ((c1 :: cs) ++
      dis.filter (fun x => (findindex (c1 :: cs) x).isNone)).map
        Index.dim =
      permDims (dis.map Index.dim)
        (destList (fun x => findindex (c1 :: cs) x) dis
          (c1 :: cs).length) := by
    apply List.ext_getElem
    · simp only [List.length_map, permDims, List.length_range]
      exact hlen2
    · intro k h1 h2
      have hk : k < dis.length := by
        rw [List.length_map, hlen2] at h1
        exact h1
      rw [List.getElem_map]
      simp only [permDims]
      rw [List.getElem_map, List.getElem_range]
      have hkP : k ∈ destList (fun x => findindex (c1 :: cs) x) dis
          (c1 :: cs).length := by
        by_cases hkm : k < (c1 :: cs).length
        · have hsurj := filterMap_findindex_surj dis (c1 :: cs) hdc
            hpres k hkm
          rw [List.mem_filterMap] at hsurj
          obtain ⟨x, hx, hgx⟩ := hsurj
          exact mem_destList_of _ dis _ k (Or.inl ⟨x, hx, hgx⟩)
        · exact mem_destList_of _ dis _ k
            (Or.inr ⟨by omega, by omega⟩)
      have hps := posOfNat_isSome_of_mem hkP
      cases hpos : posOfNat (destList (fun x => findindex (c1 :: cs) x)
          dis (c1 :: cs).length) k with
      | none => rw [hpos] at hps; simp at hps
      | some j =>
        obtain ⟨hjP, hPj⟩ := posOfNat_some hpos
        have hjr : j < dis.length := by
          rw [hPlen] at hjP
          exact hjP
        simp only [Option.getD_some]
        rw [getD_map_of_lt Index.dim 0 hjr]
        rw [← getD_of_lt _ k default (by
          rw [hlen2]
          exact hk)]
        rw [destList_getD _ dis _ j hjr] at hPj
        cases hfx : findindex (c1 :: cs) (dis.getD j default) with
        | some c =>
            rw [hfx] at hPj
            have hcm : c < (c1 :: cs).length := findindex_some_lt hfx
            rw [← hPj, getD_append_left _ hcm]
            exact hdims (dis.getD j default) (getD_mem_of_lt hjr)
              ((c1 :: cs).getD c default) (getD_mem_of_lt hcm)
              (findindex_some_indexEq hfx)
        | none =>
            rw [hfx] at hPj
            rw [← hPj, getD_append_right _ (Nat.le_add_right _ _),
                Nat.add_sub_cancel_left]
            have hp : (fun x => (findindex (c1 :: cs) x).isNone)
                (dis.getD j default) = true := by
              show (findindex (c1 :: cs)
                (dis.getD j default)).isNone = true
              rw [hfx]
              rfl
            rw [filter_getD_count _ dis j hjr hp]
  refine ⟨cind ::
      dis.filter (fun x => (findindex (c1 :: cs) x).isNone),
    some (permuteBuffer d (dis.map Index.dim)
      (destList (fun x => findindex (c1 :: cs) x) dis
        (c1 :: cs).length)),
    (c1 :: cs) ++ dis.filter (fun x => (findindex (c1 :: cs) x).isNone),
    destList (fun x => findindex (c1 :: cs) x) dis (c1 :: cs).length,
    hc1, hc2, hlen2, hPlen, ?_, hPnodup, hid, ?_⟩
  · intro j hj
    have hjP : j < (destList (fun x => findindex (c1 :: cs) x) dis
        (c1 :: cs).length).length := by
      rw [hPlen]
      exact hj
    exact hPmem _ (getD_mem_of_lt hjP)
  · intro J hJ
    rw [hdims_eq] at hJ ⊢
    rw [denseAt, denseAt]
    have hpb := permuteBuffer_getD d (dis.map Index.dim)
      (destList (fun x => findindex (c1 :: cs) x) dis
        (c1 :: cs).length) J hJ
    rw [List.length_map] at hpb
    exact hpb

/-- C4: combine followed by a second combine with the same Combiner (the
second call finds the composite index present and therefore uncombines)
recovers the original dense tensor up to index identity: there is a
bijective repositioning of the axes under which the final IndexSet
matches the original pointwise by index identity and the final buffer
reproduces every element of the original. The hypotheses are the
IndexSet invariants (no duplicate identities; an identity determines its
dimension) plus the claim's premises that the composite is absent and
every constituent present. -/
theorem combine_roundtrip {α : Type} [Inhabited α] (d : List α)
    (dis : List Index) (cind c1 : Index) (cs : List Index)
    (habs : findindex dis cind = none)
    (hpres : ∀ c ∈ c1 :: cs, (findindex dis c).isSome = true)
    (hdis : pairwiseDistinctIdx dis = true)
    (hdc : pairwiseDistinctIdx (c1 :: cs) = true)
    (hdims : ∀ x ∈ dis, ∀ c ∈ c1 :: cs, indexEq c x = true →
      Index.dim c = Index.dim x) :
    roundTripSpec d dis (cind :: c1 :: cs) := by
  have hc1s := hpres c1 (List.mem_cons_self c1 cs)
  cases hJ1 : findindex dis c1 with
  | none => rw [hJ1] at hc1s; simp at hc1s
  | some J1 =>
    cases hct : contigSameord dis J1 (cind :: c1 :: cs) with
    | true => exact roundtrip_contig d dis cind c1 cs J1 habs hJ1 hct hdims
    | false =>
        exact roundtrip_general d dis cind c1 cs J1 habs hJ1 hct hdis
          hdc hpres hdims

theorem combine_roundtrip_witness :
    (findindex [exB, exC, exA] exComp = none ∧
     (∀ c ∈ [exA, exB], (findindex [exB, exC, exA] c).isSome = true) ∧
     pairwiseDistinctIdx [exB, exC, exA] = true ∧
     pairwiseDistinctIdx [exA, exB] = true ∧
     (∀ x ∈ [exB, exC, exA], ∀ c ∈ [exA, exB], indexEq c x = true →
       Index.dim c = Index.dim x)) ∧
    roundTripSpec ([0, 1, 2, 3, 4, 5, 6, 7, 8, 9, 10, 11] : List Int)
      [exB, exC, exA] [exComp, exA, exB] :=
  ⟨⟨by decide, by decide, by decide, by decide, by decide⟩,
   combine_roundtrip ([0, 1, 2, 3, 4, 5, 6, 7, 8, 9, 10, 11] : List Int)
     [exB, exC, exA] exComp exA [exB] (by decide) (by decide)
     (by decide) (by decide) (by decide)⟩

end ITensorComb
